import Mathlib

/-!
Verification of the reference-counted sequential execution engine
(`kedro/runner/sequential_runner.py`) against its specification.

The engine is embedded shallowly: a `Node` carries its input and output
dataset names, a `Pipeline` is the ordered node sequence, and the run
`SequentialRunner.run` replays `SequentialRunner._run` step by step,
recording the observable calls (node completions, `catalog.release`
calls, the resume-scenario reporter invocation) as a trace of events.
Node execution and the failure reporter are external collaborators: the
outcome of `run_node` at each index is an oracle `fails : Nat → Option Nat`
(`none` = success, `some e` = the node raises exception `e`), and a
reporter that itself raises is modelled by `reporterExc : Option Nat`.
-/

namespace Kedro

/-- One computation step: named input and output dataset identifiers
(`node.inputs` / `node.outputs` in the source). -/
structure Node where
  inputs : List String
  outputs : List String
deriving DecidableEq, Repr

/-- A pipeline: the ordered, topologically sorted node sequence
(`pipeline.nodes` in the source). -/
structure Pipeline where
  nodes : List Node
deriving DecidableEq, Repr

/-- All dataset keys appearing in the nodes' input lists, with multiplicity
(`chain.from_iterable(n.inputs for n in nodes)`). -/
def allInputs (ns : List Node) : List String :=
  ns.flatMap Node.inputs

/-- All dataset keys appearing in the nodes' output lists, with multiplicity. -/
def allOutputs (ns : List Node) : List String :=
  ns.flatMap Node.outputs

/-- Modelled from the spec: `pipeline.inputs()` lives in the pipeline
collaborator, outside the given sources; the spec defines the free inputs
as `∪(node.inputs) − ∪(node.outputs)` (datasets consumed but never
produced inside the pipeline). -/
def Pipeline.inputs (p : Pipeline) : List String :=
  (allInputs p.nodes).filter (fun d => decide (¬ d ∈ allOutputs p.nodes))

/-- Modelled from the spec: `pipeline.outputs()` lives in the pipeline
collaborator, outside the given sources; the spec defines the free outputs
as the datasets produced but never consumed inside the pipeline. -/
def Pipeline.outputs (p : Pipeline) : List String :=
  (allOutputs p.nodes).filter (fun d => decide (¬ d ∈ allInputs p.nodes))

/-- Observable engine actions: successful completion of the node at a
zero-based index, a `catalog.release` call, and the invocation of the
`_suggest_resume_scenario` reporter with the indices of the completed
nodes. -/
inductive Event where
  | exec : Nat → Event
  | release : String → Event
  | report : List Nat → Event
deriving DecidableEq, Repr

/-- Result of a run: the trace of observable actions and the propagated
exception, if any (`none` means the run returned normally). -/
structure RunResult where
  trace : List Event
  error : Option Nat
deriving DecidableEq, Repr

/-- `load_counts[d] -= 1` on a `Counter` (missing keys read as 0, counts
may go negative, hence integer-valued counts). -/
def decr (c : String → Int) (d : String) : String → Int :=
  fun x => if x = d then c x - 1 else c x

/-- The per-node input loop of `_run`: for each dataset in `node.inputs`,
decrement its load count and, if the count fell below 1 and the dataset is
not in `pipeline.inputs()`, call `catalog.release`.  Returns the updated
counts and the emitted release events, in order. -/
def releaseInputs (fIns : List String) (c : String → Int) :
    List String → (String → Int) × List Event
  | [] => (c, [])
  | d :: rest =>
    ((releaseInputs fIns (decr c d) rest).1,
     (if decr c d d < 1 ∧ d ∉ fIns then [Event.release d] else [])
       ++ (releaseInputs fIns (decr c d) rest).2)

/-- The per-node output loop of `_run`: for each dataset in `node.outputs`,
if its load count is below 1 and the dataset is not in
`pipeline.outputs()`, call `catalog.release`.  Counts are not modified. -/
def releaseOutputs (fOuts : List String) (c : String → Int) : List String → List Event
  | [] => []
  | d :: rest =>
    (if c d < 1 ∧ d ∉ fOuts then [Event.release d] else [])
      ++ releaseOutputs fOuts c rest

/-- The main loop of `SequentialRunner._run`: iterate over the remaining
nodes with the current execution index, load counts and set of completed
node indices.  On a node failure the reporter is invoked with the
completed indices and the failure (or the reporter's own exception)
propagates; on success the input and output release loops run and the
iteration continues. -/
def runLoop (fails : Nat → Option Nat) (reporterExc : Option Nat)
    (fIns fOuts : List String) :
    List Node → Nat → (String → Int) → List Nat → RunResult
  | [], _, _, _ => ⟨[], none⟩
  | n :: rest, i, c, done =>
    match fails i with
    | some e => ⟨[Event.report done], some (reporterExc.getD e)⟩
    | none =>
      ⟨Event.exec i ::
        ((releaseInputs fIns c n.inputs).2
          ++ releaseOutputs fOuts (releaseInputs fIns c n.inputs).1 n.outputs
          ++ (runLoop fails reporterExc fIns fOuts rest (i + 1)
                (releaseInputs fIns c n.inputs).1 (done ++ [i])).trace),
       (runLoop fails reporterExc fIns fOuts rest (i + 1)
          (releaseInputs fIns c n.inputs).1 (done ++ [i])).error⟩

/-- `load_counts = Counter(chain.from_iterable(n.inputs for n in nodes))`:
the initial load count of a dataset is the number of occurrences of its
key across all nodes' input lists. -/
def initCounts (ns : List Node) : String → Int :=
  fun d => ((allInputs ns).count d : Int)

namespace SequentialRunner

/-- `SequentialRunner._run`: build the load counts, then execute the node
sequence from index 0 with no completed nodes. -/
def run (fails : Nat → Option Nat) (reporterExc : Option Nat) (p : Pipeline) :
    RunResult :=
  runLoop fails reporterExc p.inputs p.outputs p.nodes 0 (initCounts p.nodes) []

/-- `{"{default}": {"type": "MemoryDataset"}}` from `SequentialRunner.__init__`,
rendered as an association list. -/
def defaultDatasetPattern : List (String × String) :=
  [("{default}", "MemoryDataset")]

/-- `self._extra_dataset_patterns = extra_dataset_patterns or default_dataset_pattern`
from `SequentialRunner.__init__`.  Python `or` yields the right operand for
any falsy left operand, i.e. both for `None` and for an explicitly passed
empty mapping. -/
def resolveExtraDatasetPatterns (extra : Option (List (String × String))) :
    List (String × String) :=
  match extra with
  | none => defaultDatasetPattern
  | some m => if m = [] then defaultDatasetPattern else m

end SequentialRunner

/-- Topological validity of the node order with respect to one dataset `d`
(part of the `Pipeline` data model: every producer of a dataset appears
strictly before every consumer of it). -/
def WFd (d : String) (ns : List Node) : Prop :=
  ∀ i j : Fin ns.length,
    d ∈ (ns.get i).outputs → d ∈ (ns.get j).inputs → (i : Nat) < (j : Nat)

instance (d : String) (ns : List Node) : Decidable (WFd d ns) := by
  unfold WFd; infer_instance

/-- Event classifier: is this the completion of a node? -/
def Event.isExec : Event → Bool
  | .exec _ => true
  | _ => false

/-- Event classifier: is this an invocation of the failure reporter? -/
def Event.isReport : Event → Bool
  | .report _ => true
  | _ => false

/-- Scenario A of the spec, first node: `N1 : {} -> {a}`. -/
def nodeN1 : Node := ⟨[], ["a"]⟩

/-- Scenario A of the spec, second node: `N2 : {a} -> {b}`. -/
def nodeN2 : Node := ⟨["a"], ["b"]⟩

/-- Scenario A of the spec: the pipeline `[N1, N2]`. -/
def pipelineA : Pipeline := ⟨[nodeN1, nodeN2]⟩

/-- A single node producing a dataset that no node consumes. -/
def pipelineOnlyOut : Pipeline := ⟨[⟨[], ["a"]⟩]⟩

lemma mem_allInputs {d : String} {ns : List Node} :
    d ∈ allInputs ns ↔ ∃ n, n ∈ ns ∧ d ∈ n.inputs := by
  simp [allInputs]

lemma mem_allOutputs {d : String} {ns : List Node} :
    d ∈ allOutputs ns ↔ ∃ n, n ∈ ns ∧ d ∈ n.outputs := by
  simp [allOutputs]

lemma allInputs_cons (n : Node) (ns : List Node) :
    allInputs (n :: ns) = n.inputs ++ allInputs ns := by
  simp [allInputs]

lemma allOutputs_cons (n : Node) (ns : List Node) :
    allOutputs (n :: ns) = n.outputs ++ allOutputs ns := by
  simp [allOutputs]

lemma mem_pipeline_inputs {d : String} {p : Pipeline} :
    d ∈ p.inputs ↔ d ∈ allInputs p.nodes ∧ d ∉ allOutputs p.nodes := by
  simp [Pipeline.inputs, List.mem_filter]

lemma mem_pipeline_outputs {d : String} {p : Pipeline} :
    d ∈ p.outputs ↔ d ∈ allOutputs p.nodes ∧ d ∉ allInputs p.nodes := by
  simp [Pipeline.outputs, List.mem_filter]

lemma count_allInputs (d : String) :
    ∀ ns : List Node,
      (allInputs ns).count d = (ns.map (fun n => n.inputs.count d)).sum
  | [] => by simp [allInputs]
  | n :: ns => by
    rw [allInputs_cons, List.count_append, count_allInputs d ns]
    simp

lemma releaseInputs_fst (fIns : List String) :
    ∀ (l : List String) (c : String → Int) (x : String),
      (releaseInputs fIns c l).1 x = c x - (l.count x : Int)
  | [], c, x => by simp [releaseInputs]
  | d :: rest, c, x => by
    rw [releaseInputs, releaseInputs_fst fIns rest (decr c d) x]
    by_cases hx : x = d
    · subst hx
      simp [decr, List.count_cons]
      ring
    · simp [decr, hx, List.count_cons, Ne.symm hx]

lemma mem_releaseInputs_snd (fIns : List String) :
    ∀ (l : List String) (c : String → Int) (ev : Event),
      ev ∈ (releaseInputs fIns c l).2 →
        ∃ x, x ∈ l ∧ x ∉ fIns ∧ ev = Event.release x
  | [], c, ev => by simp [releaseInputs]
  | d :: rest, c, ev => by
    intro hmem
    rw [releaseInputs] at hmem
    simp only [List.mem_append] at hmem
    rcases hmem with hmem | hmem
    · by_cases hc : decr c d d < 1 ∧ d ∉ fIns
      · rw [if_pos hc] at hmem
        simp only [List.mem_singleton] at hmem
        exact ⟨d, List.mem_cons_self d rest, hc.2, hmem⟩
      · rw [if_neg hc] at hmem
        simp at hmem
    · obtain ⟨x, hx, hxf, hev⟩ := mem_releaseInputs_snd fIns rest (decr c d) ev hmem
      exact ⟨x, List.mem_cons_of_mem d hx, hxf, hev⟩

lemma mem_releaseOutputs (fOuts : List String) :
    ∀ (l : List String) (c : String → Int) (ev : Event),
      ev ∈ releaseOutputs fOuts c l →
        ∃ x, x ∈ l ∧ x ∉ fOuts ∧ c x < 1 ∧ ev = Event.release x
  | [], c, ev => by simp [releaseOutputs]
  | d :: rest, c, ev => by
    intro hmem
    rw [releaseOutputs] at hmem
    simp only [List.mem_append] at hmem
    rcases hmem with hmem | hmem
    · by_cases hc : c d < 1 ∧ d ∉ fOuts
      · rw [if_pos hc] at hmem
        simp only [List.mem_singleton] at hmem
        exact ⟨d, List.mem_cons_self d rest, hc.2, hc.1, hmem⟩
      · rw [if_neg hc] at hmem
        simp at hmem
    · obtain ⟨x, hx, hxf, hcx, hev⟩ := mem_releaseOutputs fOuts rest c ev hmem
      exact ⟨x, List.mem_cons_of_mem d hx, hxf, hcx, hev⟩

lemma count_release_releaseInputs (fIns : List String) (d : String) :
    ∀ (l : List String) (c : String → Int) (r : Nat),
      c d = (l.count d : Int) + (r : Int) →
        ((releaseInputs fIns c l).2.count (Event.release d))
          = if d ∈ l ∧ r = 0 ∧ d ∉ fIns then 1 else 0
  | [], c, r, hc => by simp [releaseInputs]
  | x :: rest, c, r, hc => by
    rw [releaseInputs, List.count_append]
    by_cases hx : x = d
    · subst hx
      have hdec : decr c x x = (rest.count x : Int) + (r : Int) := by
        simp only [decr, if_pos rfl]
        rw [hc, List.count_cons_self]
        push_cast
        ring
      rw [count_release_releaseInputs fIns x rest (decr c x) r hdec]
      by_cases hf : x ∈ fIns
      · have hC1 : ¬ (decr c x x < 1 ∧ x ∉ fIns) := fun h => h.2 hf
        have hC2 : ¬ (x ∈ rest ∧ r = 0 ∧ x ∉ fIns) := fun h => h.2.2 hf
        have hC3 : ¬ (x ∈ x :: rest ∧ r = 0 ∧ x ∉ fIns) := fun h => h.2.2 hf
        rw [if_neg hC1, if_neg hC2, if_neg hC3]
        simp
      · by_cases hr : r = 0
        · by_cases hm : x ∈ rest
          · have hcnt : 0 < rest.count x := List.count_pos_iff.mpr hm
            have hC1 : ¬ (decr c x x < 1 ∧ x ∉ fIns) := by
              intro h
              rw [hdec] at h
              have := h.1
              omega
            have hC2 : x ∈ rest ∧ r = 0 ∧ x ∉ fIns := ⟨hm, hr, hf⟩
            have hC3 : x ∈ x :: rest ∧ r = 0 ∧ x ∉ fIns :=
              ⟨List.mem_cons_self x rest, hr, hf⟩
            rw [if_neg hC1, if_pos hC2, if_pos hC3]
            simp
          · have hcnt : rest.count x = 0 := List.count_eq_zero.mpr hm
            have hC1 : decr c x x < 1 ∧ x ∉ fIns := by
              constructor
              · rw [hdec, hcnt, hr]
                norm_num
              · exact hf
            have hC2 : ¬ (x ∈ rest ∧ r = 0 ∧ x ∉ fIns) := fun h => hm h.1
            have hC3 : x ∈ x :: rest ∧ r = 0 ∧ x ∉ fIns :=
              ⟨List.mem_cons_self x rest, hr, hf⟩
            rw [if_pos hC1, if_neg hC2, if_pos hC3]
            simp
        · have hC1 : ¬ (decr c x x < 1 ∧ x ∉ fIns) := by
            intro h
            rw [hdec] at h
            have := h.1
            omega
          have hC2 : ¬ (x ∈ rest ∧ r = 0 ∧ x ∉ fIns) := fun h => hr h.2.1
          have hC3 : ¬ (x ∈ x :: rest ∧ r = 0 ∧ x ∉ fIns) := fun h => hr h.2.1
          rw [if_neg hC1, if_neg hC2, if_neg hC3]
          simp
    · have hxd : ¬ (d = x) := fun h => hx h.symm
      have hdec : decr c x d = (rest.count d : Int) + (r : Int) := by
        simp only [decr, if_neg hxd]
        rw [hc, List.count_cons_of_ne hxd]
      rw [count_release_releaseInputs fIns d rest (decr c x) r hdec]
      have hone : (if decr c x x < 1 ∧ x ∉ fIns then [Event.release x]
          else ([] : List Event)).count (Event.release d) = 0 := by
        by_cases hcond : decr c x x < 1 ∧ x ∉ fIns
        · rw [if_pos hcond]
          refine List.count_eq_zero.mpr ?_
          simp [Event.release.injEq, hxd]
        · rw [if_neg hcond]
          simp
      rw [hone]
      have hmem : (d ∈ x :: rest) ↔ (d ∈ rest) := by
        simp [List.mem_cons, hxd]
      simp [hmem]

lemma count_release_releaseOutputs (fOuts : List String) (d : String) :
    ∀ (l : List String) (c : String → Int),
      (releaseOutputs fOuts c l).count (Event.release d)
        = if c d < 1 ∧ d ∉ fOuts then l.count d else 0
  | [], c => by simp [releaseOutputs]
  | x :: rest, c => by
    rw [releaseOutputs, List.count_append,
      count_release_releaseOutputs fOuts d rest c]
    by_cases hx : x = d
    · subst hx
      by_cases hcond : c x < 1 ∧ x ∉ fOuts
      · rw [if_pos hcond, if_pos hcond, if_pos hcond, List.count_cons_self]
        simp
        omega
      · rw [if_neg hcond, if_neg hcond, if_neg hcond]
        simp
    · have hxd : ¬ (d = x) := fun h => hx h.symm
      have hone : ∀ cond : Prop, ∀ hinst : Decidable cond,
          (if cond then [Event.release x] else ([] : List Event)).count
            (Event.release d) = 0 := by
        intro cond hinst
        by_cases hcond : cond
        · rw [if_pos hcond]
          refine List.count_eq_zero.mpr ?_
          simp [Event.release.injEq, hxd]
        · rw [if_neg hcond]
          simp
      rw [hone]
      rw [List.count_cons_of_ne hxd]
      simp

lemma mem_runLoop_release (fails : Nat → Option Nat) (rexc : Option Nat)
    (fIns fOuts : List String) (d : String) :
    ∀ (ns : List Node) (i : Nat) (c : String → Int) (done : List Nat),
      Event.release d ∈ (runLoop fails rexc fIns fOuts ns i c done).trace →
        (∃ n, n ∈ ns ∧ d ∈ n.inputs ∧ d ∉ fIns)
          ∨ (∃ n, n ∈ ns ∧ d ∈ n.outputs ∧ d ∉ fOuts)
  | [], i, c, done => by simp [runLoop]
  | n :: rest, i, c, done => by
    intro hmem
    rw [runLoop] at hmem
    cases hfi : fails i with
    | some e =>
      rw [hfi] at hmem
      simp at hmem
    | none =>
      rw [hfi] at hmem
      rcases List.mem_cons.mp hmem with heq | hmem
      · exact absurd heq (by simp)
      rcases List.mem_append.mp hmem with hmem | hmem
      · rcases List.mem_append.mp hmem with hmem | hmem
        · obtain ⟨x, hx, hxf, hev⟩ :=
            mem_releaseInputs_snd fIns n.inputs c _ hmem
          have hxd : x = d := by
            injection hev.symm
          subst hxd
          exact Or.inl ⟨n, List.mem_cons_self n rest, hx, hxf⟩
        · obtain ⟨x, hx, hxf, _, hev⟩ :=
            mem_releaseOutputs fOuts n.outputs _ _ hmem
          have hxd : x = d := by
            injection hev.symm
          subst hxd
          exact Or.inr ⟨n, List.mem_cons_self n rest, hx, hxf⟩
      · rcases mem_runLoop_release fails rexc fIns fOuts d rest (i + 1) _ _ hmem with
          ⟨m, hm, hrest⟩ | ⟨m, hm, hrest⟩
        · exact Or.inl ⟨m, List.mem_cons_of_mem n hm, hrest⟩
        · exact Or.inr ⟨m, List.mem_cons_of_mem n hm, hrest⟩

lemma WFd_tail {d : String} {n : Node} {ns : List Node}
    (h : WFd d (n :: ns)) : WFd d ns := by
  intro i j hi hj
  have := h i.succ j.succ
  simp only [List.get_cons_succ] at this
  have hlt := this hi hj
  simpa [Fin.val_succ] using hlt

lemma mem_allInputs_get {d : String} {ns : List Node} :
    d ∈ allInputs ns ↔ ∃ j : Fin ns.length, d ∈ (ns.get j).inputs := by
  rw [mem_allInputs]
  constructor
  · rintro ⟨n, hn, hd⟩
    obtain ⟨j, hj⟩ := List.mem_iff_get.mp hn
    exact ⟨j, by rw [hj]; exact hd⟩
  · rintro ⟨j, hj⟩
    exact ⟨ns.get j, List.get_mem ns j.1 j.2, hj⟩

lemma mem_allOutputs_get {d : String} {ns : List Node} :
    d ∈ allOutputs ns ↔ ∃ j : Fin ns.length, d ∈ (ns.get j).outputs := by
  rw [mem_allOutputs]
  constructor
  · rintro ⟨n, hn, hd⟩
    obtain ⟨j, hj⟩ := List.mem_iff_get.mp hn
    exact ⟨j, by rw [hj]; exact hd⟩
  · rintro ⟨j, hj⟩
    exact ⟨ns.get j, List.get_mem ns j.1 j.2, hj⟩

lemma producers_head_consumer {d : String} {n : Node} {ns : List Node}
    (hwf : WFd d (n :: ns)) (hdn : d ∈ n.inputs) :
    d ∉ allOutputs ns := by
  intro hout
  obtain ⟨j, hj⟩ := mem_allOutputs_get.mp hout
  have hlt := hwf j.succ ⟨0, Nat.succ_pos _⟩
  simp only [List.get_cons_succ] at hlt
  have := hlt hj (by simpa using hdn)
  simp [Fin.val_succ] at this

lemma no_ref_tail {d : String} {n : Node} {ns : List Node}
    (hwf : WFd d (n :: ns))
    (hnp : d ∉ allInputs (n :: ns) → d ∉ allOutputs (n :: ns))
    (hrest : d ∉ allInputs ns) :
    d ∉ allOutputs ns := by
  by_cases hdn : d ∈ n.inputs
  · exact producers_head_consumer hwf hdn
  · have hni : d ∉ allInputs (n :: ns) := by
      rw [allInputs_cons]
      simp only [List.mem_append]
      rintro (h | h)
      · exact hdn h
      · exact hrest h
    have hno := hnp hni
    rw [allOutputs_cons] at hno
    intro h
    exact hno (List.mem_append.mpr (Or.inr h))

lemma hnp_tail {d : String} {n : Node} {ns : List Node}
    (hwf : WFd d (n :: ns))
    (hnp : d ∉ allInputs (n :: ns) → d ∉ allOutputs (n :: ns)) :
    d ∉ allInputs ns → d ∉ allOutputs ns :=
  no_ref_tail hwf hnp

lemma head_producer_consumed_in_tail {d : String} {n : Node} {ns : List Node}
    (hwf : WFd d (n :: ns))
    (hnp : d ∉ allInputs (n :: ns) → d ∉ allOutputs (n :: ns))
    (hdo : d ∈ n.outputs) :
    d ∈ allInputs ns := by
  by_contra hrest
  by_cases hdn : d ∈ n.inputs
  · have hlt := hwf ⟨0, Nat.succ_pos _⟩ ⟨0, Nat.succ_pos _⟩
    have := hlt (by simpa using hdo) (by simpa using hdn)
    simp at this
  · have hni : d ∉ allInputs (n :: ns) := by
      rw [allInputs_cons]
      simp only [List.mem_append]
      rintro (h | h)
      · exact hdn h
      · exact hrest h
    have hno := hnp hni
    rw [allOutputs_cons] at hno
    exact hno (List.mem_append.mpr (Or.inl hdo))

lemma append_cons_split {α : Type _} (a : α) :
    ∀ (m1 l1 l2 m2 : List α), l1 ++ a :: l2 = m1 ++ m2 → a ∉ m1 →
      ∃ t, l1 = m1 ++ t ∧ m2 = t ++ a :: l2
  | [], l1, l2, m2, heq, _ => ⟨l1, by simp, by simpa using heq.symm⟩
  | b :: m1', l1, l2, m2, heq, hna => by
    cases l1 with
    | nil =>
      simp only [List.nil_append, List.cons_append] at heq
      have hab : a = b := by
        injection heq
      exact absurd (hab ▸ List.mem_cons_self b m1') hna
    | cons x l1' =>
      simp only [List.cons_append] at heq
      have hxb : x = b := by
        injection heq
      have htail : l1' ++ a :: l2 = m1' ++ m2 := by
        injection heq
      have hna' : a ∉ m1' := fun h => hna (List.mem_cons_of_mem b h)
      obtain ⟨t, h1, h2⟩ := append_cons_split a m1' l1' l2 m2 htail hna'
      exact ⟨t, by rw [hxb, h1, List.cons_append], h2⟩

lemma filter_isExec_releaseInputs (fIns : List String) (l : List String)
    (c : String → Int) :
    ((releaseInputs fIns c l).2).filter Event.isExec = [] := by
  rw [List.filter_eq_nil_iff]
  intro ev hev
  obtain ⟨x, _, _, hx⟩ := mem_releaseInputs_snd fIns l c ev hev
  subst hx
  simp [Event.isExec]

lemma filter_isExec_releaseOutputs (fOuts : List String) (l : List String)
    (c : String → Int) :
    (releaseOutputs fOuts c l).filter Event.isExec = [] := by
  rw [List.filter_eq_nil_iff]
  intro ev hev
  obtain ⟨x, _, _, _, hx⟩ := mem_releaseOutputs fOuts l c ev hev
  subst hx
  simp [Event.isExec]

lemma filter_isExec_runLoop (fails : Nat → Option Nat) (rexc : Option Nat)
    (fIns fOuts : List String) (hsucc : ∀ m, fails m = none) :
    ∀ (ns : List Node) (i : Nat) (c : String → Int) (done : List Nat),
      ((runLoop fails rexc fIns fOuts ns i c done).trace).filter Event.isExec
        = (List.range ns.length).map (fun j => Event.exec (i + j))
  | [], i, c, done => by simp [runLoop]
  | n :: rest, i, c, done => by
    rw [runLoop, hsucc i]
    simp only
    rw [List.filter_cons_of_pos (by simp [Event.isExec]),
      List.filter_append, List.filter_append,
      filter_isExec_releaseInputs, filter_isExec_releaseOutputs,
      filter_isExec_runLoop fails rexc fIns fOuts hsucc rest (i + 1) _ _]
    rw [List.length_cons, List.range_succ_eq_map, List.map_cons, List.map_map]
    simp only [List.nil_append, Nat.add_zero]
    congr 1
    apply List.map_congr_left
    intro a _
    simp only [Function.comp_apply]
    congr 1
    omega

lemma no_report_runLoop (fails : Nat → Option Nat) (rexc : Option Nat)
    (fIns fOuts : List String) (hsucc : ∀ m, fails m = none) :
    ∀ (ns : List Node) (i : Nat) (c : String → Int) (done l : List Nat),
      Event.report l ∉ (runLoop fails rexc fIns fOuts ns i c done).trace
  | [], i, c, done, l => by simp [runLoop]
  | n :: rest, i, c, done, l => by
    rw [runLoop, hsucc i]
    intro hmem
    rcases List.mem_cons.mp hmem with heq | hmem
    · exact absurd heq (by simp)
    rcases List.mem_append.mp hmem with hmem | hmem
    · rcases List.mem_append.mp hmem with hmem | hmem
      · obtain ⟨x, _, _, hx⟩ := mem_releaseInputs_snd fIns n.inputs c _ hmem
        simp at hx
      · obtain ⟨x, _, _, _, hx⟩ := mem_releaseOutputs fOuts n.outputs _ _ hmem
        simp at hx
    · exact no_report_runLoop fails rexc fIns fOuts hsucc rest (i + 1) _ _ l hmem

lemma runLoop_success_congr (fails1 fails2 : Nat → Option Nat)
    (rexc1 rexc2 : Option Nat) (fIns fOuts : List String)
    (h1 : ∀ m, fails1 m = none) (h2 : ∀ m, fails2 m = none) :
    ∀ (ns : List Node) (i : Nat) (c : String → Int) (done : List Nat),
      runLoop fails1 rexc1 fIns fOuts ns i c done
        = runLoop fails2 rexc2 fIns fOuts ns i c done
  | [], i, c, done => rfl
  | n :: rest, i, c, done => by
    rw [runLoop, runLoop, h1 i, h2 i]
    simp only
    rw [runLoop_success_congr fails1 fails2 rexc1 rexc2 fIns fOuts h1 h2
      rest (i + 1) _ _]

lemma count_release_runLoop_success (fails : Nat → Option Nat)
    (rexc : Option Nat) (fIns fOuts : List String) (d : String)
    (hsucc : ∀ m, fails m = none) (hdf : d ∉ fIns) :
    ∀ (ns : List Node) (i : Nat) (c : String → Int) (done : List Nat),
      c d = ((allInputs ns).count d : Int) →
      WFd d ns →
      (d ∉ allInputs ns → d ∉ allOutputs ns) →
      ((runLoop fails rexc fIns fOuts ns i c done).trace.count (Event.release d))
        = if d ∈ allInputs ns then 1 else 0
  | [], i, c, done, hc, hwf, hnp => by simp [runLoop, allInputs]
  | n :: rest, i, c, done, hc, hwf, hnp => by
    rw [runLoop, hsucc i]
    simp only
    rw [List.count_cons_of_ne (by simp), List.count_append, List.count_append]
    have hcA : c d = (n.inputs.count d : Int) + ((allInputs rest).count d : Int) := by
      rw [hc, allInputs_cons, List.count_append]
      push_cast
      ring
    rw [count_release_releaseInputs fIns d n.inputs c ((allInputs rest).count d) hcA]
    have hc1 : (releaseInputs fIns c n.inputs).1 d
        = (((allInputs rest).count d : Nat) : Int) := by
      rw [releaseInputs_fst, hcA]
      ring
    have hB : (releaseOutputs fOuts (releaseInputs fIns c n.inputs).1
        n.outputs).count (Event.release d) = 0 := by
      rw [count_release_releaseOutputs]
      by_cases hdo : d ∈ n.outputs
      · have hcons : d ∈ allInputs rest :=
          head_producer_consumed_in_tail hwf hnp hdo
        have hpos : 0 < (allInputs rest).count d := List.count_pos_iff.mpr hcons
        have hcond : ¬ ((releaseInputs fIns c n.inputs).1 d < 1 ∧ d ∉ fOuts) := by
          intro h
          rw [hc1] at h
          have := h.1
          omega
        rw [if_neg hcond]
      · have h0 : n.outputs.count d = 0 := List.count_eq_zero.mpr hdo
        rw [h0]
        simp
    rw [hB]
    rw [count_release_runLoop_success fails rexc fIns fOuts d hsucc hdf rest
      (i + 1) _ (done ++ [i]) hc1 (WFd_tail hwf) (hnp_tail hwf hnp)]
    have hmemc : d ∈ allInputs (n :: rest) ↔ d ∈ n.inputs ∨ d ∈ allInputs rest := by
      rw [allInputs_cons]
      exact List.mem_append
    by_cases hrest : d ∈ allInputs rest
    · have h0 : ¬ ((allInputs rest).count d = 0) := by
        have := List.count_pos_iff.mpr hrest
        omega
      have hA0 : ¬ (d ∈ n.inputs ∧ (allInputs rest).count d = 0 ∧ d ∉ fIns) :=
        fun h => h0 h.2.1
      rw [if_neg hA0, if_pos hrest, if_pos (hmemc.mpr (Or.inr hrest))]
    · have h0 : (allInputs rest).count d = 0 := List.count_eq_zero.mpr hrest
      by_cases hdn : d ∈ n.inputs
      · rw [if_pos ⟨hdn, h0, hdf⟩, if_neg hrest,
          if_pos (hmemc.mpr (Or.inl hdn))]
      · have hnm : ¬ d ∈ allInputs (n :: rest) := by
          rw [hmemc]
          rintro (h | h)
          · exact hdn h
          · exact hrest h
        rw [if_neg (fun h => hdn h.1), if_neg hrest, if_neg hnm]

lemma exec_before_release_runLoop (fails : Nat → Option Nat)
    (rexc : Option Nat) (fIns fOuts : List String) (d : String)
    (hsucc : ∀ m, fails m = none) (hdf : d ∉ fIns) :
    ∀ (ns : List Node) (i : Nat) (c : String → Int) (done : List Nat)
      (pre post : List Event),
      c d = ((allInputs ns).count d : Int) →
      WFd d ns →
      (d ∉ allInputs ns → d ∉ allOutputs ns) →
      (runLoop fails rexc fIns fOuts ns i c done).trace
        = pre ++ Event.release d :: post →
      ∀ k : Fin ns.length,
        (d ∈ (ns.get k).inputs ∨ d ∈ (ns.get k).outputs) →
        Event.exec (i + (k : Nat)) ∈ pre
  | [], i, c, done, pre, post, hc, hwf, hnp, htr => by
    rw [runLoop] at htr
    cases pre <;> simp at htr
  | n :: rest, i, c, done, pre, post, hc, hwf, hnp, htr => by
    rw [runLoop, hsucc i] at htr
    simp only at htr
    cases pre with
    | nil =>
      simp only [List.nil_append] at htr
      have h1 : Event.exec i = Event.release d := by
        injection htr
      simp at h1
    | cons a pre' =>
      simp only [List.cons_append] at htr
      have h1 : Event.exec i = a := by
        injection htr
      have h2 : (releaseInputs fIns c n.inputs).2
            ++ releaseOutputs fOuts (releaseInputs fIns c n.inputs).1 n.outputs
            ++ (runLoop fails rexc fIns fOuts rest (i + 1)
                  (releaseInputs fIns c n.inputs).1 (done ++ [i])).trace
          = pre' ++ Event.release d :: post := by
        injection htr
      intro k hk
      rcases k with ⟨kv, hkv⟩
      have hcA : c d = (n.inputs.count d : Int)
          + ((allInputs rest).count d : Int) := by
        rw [hc, allInputs_cons, List.count_append]
        push_cast
        ring
      have hc1 : (releaseInputs fIns c n.inputs).1 d
          = (((allInputs rest).count d : Nat) : Int) := by
        rw [releaseInputs_fst, hcA]
        ring
      cases kv with
      | zero =>
        have ha : a = Event.exec i := h1.symm
        subst ha
        simp
      | succ j =>
        have hkj : j < rest.length := Nat.lt_of_succ_lt_succ hkv
        have hkrest : d ∈ (rest.get ⟨j, hkj⟩).inputs
            ∨ d ∈ (rest.get ⟨j, hkj⟩).outputs := by
          simpa [List.get_cons_succ] using hk
        by_cases hrest : d ∈ allInputs rest
        · have hposr : 0 < (allInputs rest).count d :=
            List.count_pos_iff.mpr hrest
          have hAcnt : ((releaseInputs fIns c n.inputs).2.count
              (Event.release d)) = 0 := by
            rw [count_release_releaseInputs fIns d n.inputs c
              ((allInputs rest).count d) hcA]
            have : ¬ (d ∈ n.inputs ∧ (allInputs rest).count d = 0 ∧ d ∉ fIns) := by
              intro h
              omega
            rw [if_neg this]
          have hBcnt : ((releaseOutputs fOuts (releaseInputs fIns c n.inputs).1
              n.outputs).count (Event.release d)) = 0 := by
            rw [count_release_releaseOutputs]
            have : ¬ ((releaseInputs fIns c n.inputs).1 d < 1 ∧ d ∉ fOuts) := by
              intro h
              rw [hc1] at h
              have := h.1
              omega
            rw [if_neg this]
          have hnotAB : Event.release d ∉
              ((releaseInputs fIns c n.inputs).2
                ++ releaseOutputs fOuts (releaseInputs fIns c n.inputs).1
                    n.outputs) := by
            intro hmem
            rcases List.mem_append.mp hmem with hmem | hmem
            · exact absurd hmem (List.count_eq_zero.mp hAcnt)
            · exact absurd hmem (List.count_eq_zero.mp hBcnt)
          obtain ⟨t, hpre', hC⟩ := append_cons_split (Event.release d)
            ((releaseInputs fIns c n.inputs).2
              ++ releaseOutputs fOuts (releaseInputs fIns c n.inputs).1
                  n.outputs)
            pre' post
            ((runLoop fails rexc fIns fOuts rest (i + 1)
                (releaseInputs fIns c n.inputs).1 (done ++ [i])).trace)
            h2.symm hnotAB
          have hmemt : Event.exec ((i + 1) + j) ∈ t :=
            exec_before_release_runLoop fails rexc fIns fOuts d hsucc hdf
              rest (i + 1) _ (done ++ [i]) t post hc1
              (WFd_tail hwf) (hnp_tail hwf hnp) hC ⟨j, hkj⟩ hkrest
          have hidx : i + (j + 1) = (i + 1) + j := by
            omega
          rw [hidx]
          refine List.mem_cons_of_mem a ?_
          rw [hpre']
          exact List.mem_append.mpr (Or.inr hmemt)
        · rcases hkrest with hkr | hkr
          · exact absurd (mem_allInputs_get.mpr ⟨⟨j, hkj⟩, hkr⟩) hrest
          · by_cases hdn : d ∈ n.inputs
            · have hout : d ∈ ((n :: rest).get ⟨j + 1, hkv⟩).outputs := by
                simpa [List.get_cons_succ] using hkr
              have hin : d ∈ ((n :: rest).get
                  ⟨0, Nat.succ_pos rest.length⟩).inputs := by
                simpa using hdn
              have := hwf ⟨j + 1, hkv⟩ ⟨0, Nat.succ_pos rest.length⟩ hout hin
              simp at this
            · have hni : d ∉ allInputs (n :: rest) := by
                rw [allInputs_cons]
                simp only [List.mem_append]
                rintro (h | h)
                · exact hdn h
                · exact hrest h
              have hno := hnp hni
              rw [allOutputs_cons] at hno
              exact absurd (List.mem_append.mpr
                (Or.inr (mem_allOutputs_get.mpr ⟨⟨j, hkj⟩, hkr⟩))) hno

lemma runLoop_fail_cons {fails : Nat → Option Nat} {i : Nat} {e : Nat}
    (rexc : Option Nat) (fIns fOuts : List String) (n : Node) (rest : List Node)
    (c : String → Int) (done : List Nat) (hf : fails i = some e) :
    runLoop fails rexc fIns fOuts (n :: rest) i c done
      = ⟨[Event.report done], some (rexc.getD e)⟩ := by
  rw [runLoop, hf]

lemma runLoop_success_cons {fails : Nat → Option Nat} {i : Nat}
    (rexc : Option Nat) (fIns fOuts : List String) (n : Node) (rest : List Node)
    (c : String → Int) (done : List Nat) (hf : fails i = none) :
    runLoop fails rexc fIns fOuts (n :: rest) i c done
      = ⟨Event.exec i ::
          ((releaseInputs fIns c n.inputs).2
            ++ releaseOutputs fOuts (releaseInputs fIns c n.inputs).1 n.outputs
            ++ (runLoop fails rexc fIns fOuts rest (i + 1)
                  (releaseInputs fIns c n.inputs).1 (done ++ [i])).trace),
         (runLoop fails rexc fIns fOuts rest (i + 1)
            (releaseInputs fIns c n.inputs).1 (done ++ [i])).error⟩ := by
  rw [runLoop, hf]

lemma runLoop_fail_error (fails : Nat → Option Nat) (rexc : Option Nat)
    (fIns fOuts : List String) (e : Nat) :
    ∀ (ns : List Node) (k i : Nat) (c : String → Int) (done : List Nat),
      k < ns.length → (∀ m, m < k → fails (i + m) = none) →
      fails (i + k) = some e →
      (runLoop fails rexc fIns fOuts ns i c done).error = some (rexc.getD e)
  | [], k, i, c, done, hk, _, _ => absurd hk (by simp)
  | n :: rest, k, i, c, done, hk, hpre, hfk => by
    cases k with
    | zero =>
      have hf : fails i = some e := by simpa using hfk
      rw [runLoop_fail_cons rexc fIns fOuts n rest c done hf]
    | succ k' =>
      have h0 : fails i = none := by simpa using hpre 0 (Nat.succ_pos k')
      rw [runLoop_success_cons rexc fIns fOuts n rest c done h0]
      exact runLoop_fail_error fails rexc fIns fOuts e rest k' (i + 1) _ _
        (by simpa using hk)
        (fun m hm => by
          have := hpre (m + 1) (Nat.succ_lt_succ hm)
          rwa [show i + (m + 1) = (i + 1) + m by omega] at this)
        (by rwa [show i + (k' + 1) = (i + 1) + k' by omega] at hfk)

lemma runLoop_fail_trace (fails : Nat → Option Nat) (rexc : Option Nat)
    (fIns fOuts : List String) (e : Nat) :
    ∀ (ns : List Node) (k i : Nat) (c : String → Int),
      k < ns.length → (∀ m, m < k → fails (i + m) = none) →
      fails (i + k) = some e →
      (runLoop fails rexc fIns fOuts ns i c (List.range i)).trace
        = (runLoop (fun _ => none) rexc fIns fOuts (ns.take k) i c
            (List.range i)).trace
          ++ [Event.report (List.range (i + k))]
  | [], k, i, c, hk, _, _ => absurd hk (by simp)
  | n :: rest, k, i, c, hk, hpre, hfk => by
    cases k with
    | zero =>
      have hf : fails i = some e := by simpa using hfk
      rw [runLoop_fail_cons rexc fIns fOuts n rest c (List.range i) hf]
      simp [runLoop]
    | succ k' =>
      have h0 : fails i = none := by simpa using hpre 0 (Nat.succ_pos k')
      rw [List.take_succ_cons,
        runLoop_success_cons rexc fIns fOuts n rest c (List.range i) h0,
        runLoop_success_cons rexc fIns fOuts n (rest.take k') c (List.range i)
          rfl]
      simp only
      rw [← List.range_succ]
      rw [runLoop_fail_trace fails rexc fIns fOuts e rest k' (i + 1) _
        (by simpa using hk)
        (fun m hm => by
          have := hpre (m + 1) (Nat.succ_lt_succ hm)
          rwa [show i + (m + 1) = (i + 1) + m by omega] at this)
        (by rwa [show i + (k' + 1) = (i + 1) + k' by omega] at hfk)]
      rw [show (i + 1) + k' = i + (k' + 1) by omega]
      simp [List.append_assoc]

lemma exec_mem_runLoop_success (fails : Nat → Option Nat) (rexc : Option Nat)
    (fIns fOuts : List String) (hsucc : ∀ m, fails m = none)
    (ns : List Node) (i : Nat) (c : String → Int) (done : List Nat)
    (m : Nat)
    (hmem : Event.exec m ∈ (runLoop fails rexc fIns fOuts ns i c done).trace) :
    i ≤ m ∧ m < i + ns.length := by
  have hfil : Event.exec m ∈
      ((runLoop fails rexc fIns fOuts ns i c done).trace).filter Event.isExec :=
    List.mem_filter.mpr ⟨hmem, by simp [Event.isExec]⟩
  rw [filter_isExec_runLoop fails rexc fIns fOuts hsucc ns i c done] at hfil
  obtain ⟨j, hj, hje⟩ := List.mem_map.mp hfil
  have hj' : j < ns.length := List.mem_range.mp hj
  have hm : i + j = m := by
    injection hje
  omega

lemma exec_order_of_filter {tr : List Event} {len : Nat}
    (hf : tr.filter Event.isExec = (List.range len).map Event.exec) :
    ∀ a b : Nat, a < b →
      ∀ pre post, tr = pre ++ Event.exec b :: post → Event.exec a ∈ pre := by
  intro a b hab pre post htr
  have hsplit : (pre.filter Event.isExec)
      ++ Event.exec b :: (post.filter Event.isExec)
      = (List.range len).map Event.exec := by
    rw [← hf, htr, List.filter_append,
      List.filter_cons_of_pos (by simp [Event.isExec])]
  have hblen : b < len := by
    have hbmem : Event.exec b ∈ (List.range len).map Event.exec := by
      rw [← hsplit]
      exact List.mem_append.mpr (Or.inr (List.mem_cons_self _ _))
    obtain ⟨j, hj, hje⟩ := List.mem_map.mp hbmem
    have : j = b := by
      injection hje
    subst this
    exact List.mem_range.mp hj
  have hlenA : (pre.filter Event.isExec).length < len := by
    have : (pre.filter Event.isExec).length
        < ((List.range len).map Event.exec).length := by
      rw [← hsplit]
      simp
    simpa using this
  have hget : ((List.range len).map Event.exec)[(pre.filter
      Event.isExec).length]? = some (Event.exec b) := by
    rw [← hsplit, List.getElem?_append_right (Nat.le_refl _), Nat.sub_self]
    simp
  have hget2 : ((List.range len).map Event.exec)[(pre.filter
      Event.isExec).length]?
      = some (Event.exec ((pre.filter Event.isExec).length)) := by
    rw [List.getElem?_map, List.getElem?_range hlenA]
    rfl
  have hAb : (pre.filter Event.isExec).length = b := by
    have h1 := hget2.symm.trans hget
    have h2 : Event.exec ((pre.filter Event.isExec).length) = Event.exec b := by
      injection h1
    injection h2
  have hAtake : pre.filter Event.isExec
      = ((List.range len).map Event.exec).take
          (pre.filter Event.isExec).length := by
    conv_rhs => rw [← hsplit]
    rw [List.take_left]
  have hArange : pre.filter Event.isExec = (List.range b).map Event.exec := by
    rw [hAtake, hAb, ← List.map_take, List.take_range,
      Nat.min_eq_left (Nat.le_of_lt hblen)]
  have hmemA : Event.exec a ∈ pre.filter Event.isExec := by
    rw [hArange]
    exact List.mem_map.mpr ⟨a, List.mem_range.mpr hab, rfl⟩
  exact (List.mem_filter.mp hmemA).1

lemma release_not_mem_of_not_input (p : Pipeline) (d : String)
    (fails : Nat → Option Nat) (rexc : Option Nat)
    (hnotin : d ∉ allInputs p.nodes) :
    Event.release d ∉ (SequentialRunner.run fails rexc p).trace := by
  intro hmem
  simp only [SequentialRunner.run] at hmem
  rcases mem_runLoop_release fails rexc p.inputs p.outputs d p.nodes 0 _ []
      hmem with ⟨n, hn, hdn, _⟩ | ⟨n, hn, hdn, hdf⟩
  · exact hnotin (mem_allInputs.mpr ⟨n, hn, hdn⟩)
  · exact hdf (mem_pipeline_outputs.mpr
      ⟨mem_allOutputs.mpr ⟨n, hn, hdn⟩, hnotin⟩)

/-- A failure oracle that makes the node at index 1 raise exception 7. -/
def failsAt1 : Nat → Option Nat := fun i => if i = 1 then some 7 else none

/-- A failure oracle that never fires, written with a vacuous guard. -/
def failsNever : Nat → Option Nat := fun i => if i < 0 then some 1 else none

/-- C1: for every pipeline and every dataset `d` that is not a free input,
not a free output and is referenced by some node, a successful run calls
`store.release d` exactly once, and only at a point of the trace at which
every node whose inputs or outputs mention `d` has already completed. -/
theorem C1_release_exactly_once_after_last_use (p : Pipeline) (d : String)
    (fails : Nat → Option Nat) (rexc : Option Nat)
    (hwf : WFd d p.nodes)
    (hsucc : ∀ m, fails m = none)
    (hnotIn : d ∉ p.inputs) (hnotOut : d ∉ p.outputs)
    (href : ∃ n, n ∈ p.nodes ∧ (d ∈ n.inputs ∨ d ∈ n.outputs)) :
    ((SequentialRunner.run fails rexc p).trace.count (Event.release d) = 1)
    ∧ (∀ pre post,
        (SequentialRunner.run fails rexc p).trace
          = pre ++ Event.release d :: post →
        ∀ k : Fin p.nodes.length,
          (d ∈ (p.nodes.get k).inputs ∨ d ∈ (p.nodes.get k).outputs) →
          Event.exec (k : Nat) ∈ pre) := by
  have href' : d ∈ allInputs p.nodes ∨ d ∈ allOutputs p.nodes := by
    obtain ⟨n, hn, h⟩ := href
    rcases h with h | h
    · exact Or.inl (mem_allInputs.mpr ⟨n, hn, h⟩)
    · exact Or.inr (mem_allOutputs.mpr ⟨n, hn, h⟩)
  have hin : d ∈ allInputs p.nodes := by
    rcases href' with h | h
    · exact h
    · by_contra hni
      exact hnotOut (mem_pipeline_outputs.mpr ⟨h, hni⟩)
  have hnp : d ∉ allInputs p.nodes → d ∉ allOutputs p.nodes :=
    fun h => absurd hin h
  constructor
  · simp only [SequentialRunner.run]
    rw [count_release_runLoop_success fails rexc p.inputs p.outputs d hsucc
      hnotIn p.nodes 0 _ [] rfl hwf hnp]
    rw [if_pos hin]
  · intro pre post htr k hk
    have := exec_before_release_runLoop fails rexc p.inputs p.outputs d hsucc
      hnotIn p.nodes 0 _ [] pre post rfl hwf hnp
      (by simpa [SequentialRunner.run] using htr) k hk
    simpa using this

/-- C1 witness: in Scenario A (`N1 : [] → [a]`, `N2 : [a] → [b]`) the
dataset `a` is internal and released exactly once, after both nodes. -/
theorem C1_witness :
    (WFd "a" pipelineA.nodes
      ∧ "a" ∉ pipelineA.inputs ∧ "a" ∉ pipelineA.outputs
      ∧ ∃ n, n ∈ pipelineA.nodes ∧ ("a" ∈ n.inputs ∨ "a" ∈ n.outputs))
    ∧ (((SequentialRunner.run (fun _ => none) none pipelineA).trace.count
          (Event.release "a") = 1)
      ∧ (∀ pre post,
          (SequentialRunner.run (fun _ => none) none pipelineA).trace
            = pre ++ Event.release "a" :: post →
          ∀ k : Fin pipelineA.nodes.length,
            ("a" ∈ (pipelineA.nodes.get k).inputs
              ∨ "a" ∈ (pipelineA.nodes.get k).outputs) →
            Event.exec (k : Nat) ∈ pre)) :=
  ⟨⟨by decide, by decide, by decide, by decide⟩,
   C1_release_exactly_once_after_last_use pipelineA "a" (fun _ => none) none
     (by decide) (fun _ => rfl) (by decide) (by decide) (by decide)⟩

/-- C2: a dataset on the pipeline's external boundary (a free input or a
free output) is never released by the engine, in successful and in failed
runs alike. -/
theorem C2_boundary_never_released (p : Pipeline) (d : String)
    (fails : Nat → Option Nat) (rexc : Option Nat)
    (hd : d ∈ p.inputs ∨ d ∈ p.outputs) :
    Event.release d ∉ (SequentialRunner.run fails rexc p).trace := by
  intro hmem
  simp only [SequentialRunner.run] at hmem
  rcases mem_runLoop_release fails rexc p.inputs p.outputs d p.nodes 0 _ []
      hmem with ⟨n, hn, hdn, hdf⟩ | ⟨n, hn, hdn, hdf⟩
  · rcases hd with hd | hd
    · exact hdf hd
    · exact (mem_pipeline_outputs.mp hd).2 (mem_allInputs.mpr ⟨n, hn, hdn⟩)
  · rcases hd with hd | hd
    · exact (mem_pipeline_inputs.mp hd).2 (mem_allOutputs.mpr ⟨n, hn, hdn⟩)
    · exact hdf hd

/-- C2 witness: in Scenario A the free output `b` is never released. -/
theorem C2_witness :
    ("b" ∈ pipelineA.inputs ∨ "b" ∈ pipelineA.outputs)
    ∧ Event.release "b"
        ∉ (SequentialRunner.run (fun _ => none) none pipelineA).trace :=
  ⟨by decide,
   C2_boundary_never_released pipelineA "b" (fun _ => none) none (by decide)⟩

/-- C3 counterexample: in the one-node pipeline `[] → [a]` the dataset `a`
is an output that no node consumes, its initial load count is 0, the run
succeeds, and yet `release a` is never called — the key lies in
`pipeline.outputs()`, so the guard blocks the release, contradicting the
claim that it is released immediately after production. -/
theorem C3_counterexample :
    ("a" ∈ allOutputs pipelineOnlyOut.nodes)
    ∧ (∀ n, n ∈ pipelineOnlyOut.nodes → "a" ∉ n.inputs)
    ∧ initCounts pipelineOnlyOut.nodes "a" = 0
    ∧ (SequentialRunner.run (fun _ => none) none pipelineOnlyOut).error = none
    ∧ Event.release "a"
        ∉ (SequentialRunner.run (fun _ => none) none pipelineOnlyOut).trace := by
  decide

/-- C3 amended: a dataset key that is an output of some node and never an
input of any node has liveness count 0, but it necessarily belongs to the
pipeline's free outputs, so the engine never releases it (the boundary
guard takes precedence over the zero count). -/
theorem C3_amended_unconsumed_output_retained (p : Pipeline) (d : String)
    (fails : Nat → Option Nat) (rexc : Option Nat)
    (hout : d ∈ allOutputs p.nodes)
    (hnin : ∀ n, n ∈ p.nodes → d ∉ n.inputs) :
    initCounts p.nodes d = 0
    ∧ d ∈ p.outputs
    ∧ Event.release d ∉ (SequentialRunner.run fails rexc p).trace := by
  have hnotin : d ∉ allInputs p.nodes := by
    intro h
    obtain ⟨n, hn, hdn⟩ := mem_allInputs.mp h
    exact hnin n hn hdn
  refine ⟨?_, ?_, ?_⟩
  · simp only [initCounts]
    rw [List.count_eq_zero.mpr hnotin]
    rfl
  · exact mem_pipeline_outputs.mpr ⟨hout, hnotin⟩
  · exact release_not_mem_of_not_input p d fails rexc hnotin

/-- C3 amended witness: the unconsumed output `a` of `pipelineOnlyOut` is
retained. -/
theorem C3_amended_witness :
    (("a" ∈ allOutputs pipelineOnlyOut.nodes)
      ∧ ∀ n, n ∈ pipelineOnlyOut.nodes → "a" ∉ n.inputs)
    ∧ (initCounts pipelineOnlyOut.nodes "a" = 0
      ∧ "a" ∈ pipelineOnlyOut.outputs
      ∧ Event.release "a"
          ∉ (SequentialRunner.run failsNever (some 3) pipelineOnlyOut).trace) :=
  ⟨⟨by decide, by decide⟩,
   C3_amended_unconsumed_output_retained pipelineOnlyOut "a" failsNever
     (some 3) (by decide) (by decide)⟩

/-- C4: if the node at index `k` raises `e` (after a successful prefix)
and the reporter adheres to its must-not-raise contract, the engine
propagates `e` unchanged, invokes the failure reporter exactly once with
precisely the node indices `[0, k)`, and no node at an index `≥ k` ever
completes. -/
theorem C4_failure_reporting (p : Pipeline) (fails : Nat → Option Nat)
    (e k : Nat)
    (hk : k < p.nodes.length)
    (hpre : ∀ m, m < k → fails m = none)
    (hfk : fails k = some e) :
    (SequentialRunner.run fails none p).error = some e
    ∧ (SequentialRunner.run fails none p).trace.filter Event.isReport
        = [Event.report (List.range k)]
    ∧ ∀ m, Event.exec m ∈ (SequentialRunner.run fails none p).trace → m < k := by
  have hpre0 : ∀ m, m < k → fails (0 + m) = none := by
    intro m hm
    rw [Nat.zero_add]
    exact hpre m hm
  have hfk0 : fails (0 + k) = some e := by
    rw [Nat.zero_add]
    exact hfk
  have htr : (SequentialRunner.run fails none p).trace
      = (runLoop (fun _ => none) none p.inputs p.outputs (p.nodes.take k) 0
          (initCounts p.nodes) (List.range 0)).trace
        ++ [Event.report (List.range (0 + k))] := by
    simp only [SequentialRunner.run]
    rw [show ([] : List Nat) = List.range 0 from (List.range_zero).symm]
    exact runLoop_fail_trace fails none p.inputs p.outputs e p.nodes k 0 _
      hk hpre0 hfk0
  have hnil : ((runLoop (fun _ => none) none p.inputs p.outputs
      (p.nodes.take k) 0 (initCounts p.nodes) (List.range 0)).trace).filter
        Event.isReport = [] := by
    rw [List.filter_eq_nil_iff]
    intro ev hev hrep
    cases ev with
    | report l =>
      exact no_report_runLoop (fun _ => none) none p.inputs p.outputs
        (fun _ => rfl) _ 0 _ _ l hev
    | exec m => simp [Event.isReport] at hrep
    | release x => simp [Event.isReport] at hrep
  refine ⟨?_, ?_, ?_⟩
  · simp only [SequentialRunner.run]
    have := runLoop_fail_error fails none p.inputs p.outputs e p.nodes k 0
      (initCounts p.nodes) [] hk hpre0 hfk0
    simpa using this
  · rw [htr, List.filter_append, hnil, List.nil_append]
    simp [Event.isReport]
  · intro m hm
    rw [htr] at hm
    rcases List.mem_append.mp hm with hm | hm
    · have hb := exec_mem_runLoop_success (fun _ => none) none p.inputs
        p.outputs (fun _ => rfl) (p.nodes.take k) 0 _ _ m hm
      have hlen : (p.nodes.take k).length = k := by
        rw [List.length_take]
        omega
      omega
    · simp at hm

/-- C4 witness: in Scenario A with node 1 failing with exception 7, the
error is 7, the reporter is invoked once with `[0]`, and only node 0
completes. -/
theorem C4_witness :
    ((1 : Nat) < pipelineA.nodes.length
      ∧ (∀ m, m < 1 → failsAt1 m = none)
      ∧ failsAt1 1 = some 7)
    ∧ ((SequentialRunner.run failsAt1 none pipelineA).error = some 7
      ∧ (SequentialRunner.run failsAt1 none pipelineA).trace.filter
          Event.isReport = [Event.report (List.range 1)]
      ∧ ∀ m, Event.exec m ∈ (SequentialRunner.run failsAt1 none
          pipelineA).trace → m < 1) :=
  ⟨⟨by decide,
    by
      intro m hm
      have h0 : m = 0 := by omega
      subst h0
      rfl,
    rfl⟩,
   C4_failure_reporting pipelineA failsAt1 7 1 (by decide)
     (by
       intro m hm
       have h0 : m = 0 := by omega
       subst h0
       rfl)
     rfl⟩

/-- C5: when the node at index `k` fails, the whole observable trace is
exactly the trace of a successful run of the truncated pipeline
`take k` followed by the single reporter invocation — in particular the
engine performs no release call for the failing node's datasets and the
release state is as it was after the last completed node. -/
theorem C5_failure_preserves_release_state (p : Pipeline)
    (fails : Nat → Option Nat) (rexc : Option Nat) (e k : Nat)
    (hk : k < p.nodes.length)
    (hpre : ∀ m, m < k → fails m = none)
    (hfk : fails k = some e) :
    (SequentialRunner.run fails rexc p).trace
      = (runLoop (fun _ => none) rexc p.inputs p.outputs (p.nodes.take k) 0
          (initCounts p.nodes) []).trace
        ++ [Event.report (List.range k)]
    ∧ ∀ d, Event.release d ∈ (SequentialRunner.run fails rexc p).trace →
        Event.release d ∈ (runLoop (fun _ => none) rexc p.inputs p.outputs
          (p.nodes.take k) 0 (initCounts p.nodes) []).trace := by
  have hpre0 : ∀ m, m < k → fails (0 + m) = none := by
    intro m hm
    rw [Nat.zero_add]
    exact hpre m hm
  have hfk0 : fails (0 + k) = some e := by
    rw [Nat.zero_add]
    exact hfk
  have htr : (SequentialRunner.run fails rexc p).trace
      = (runLoop (fun _ => none) rexc p.inputs p.outputs (p.nodes.take k) 0
          (initCounts p.nodes) []).trace
        ++ [Event.report (List.range k)] := by
    simp only [SequentialRunner.run]
    rw [show ([] : List Nat) = List.range 0 from (List.range_zero).symm]
    have := runLoop_fail_trace fails rexc p.inputs p.outputs e p.nodes k 0
      (initCounts p.nodes) hk hpre0 hfk0
    rwa [Nat.zero_add] at this
  refine ⟨htr, ?_⟩
  intro d hd
  rw [htr] at hd
  rcases List.mem_append.mp hd with hd | hd
  · exact hd
  · simp at hd

/-- C5 witness: Scenario C — node 1 of Scenario A raises; the trace is the
successful prefix trace plus one report, and `release a` never happens. -/
theorem C5_witness :
    ((1 : Nat) < pipelineA.nodes.length
      ∧ (∀ m, m < 1 → failsAt1 m = none)
      ∧ failsAt1 1 = some 7)
    ∧ ((SequentialRunner.run failsAt1 none pipelineA).trace
        = (runLoop (fun _ => none) none pipelineA.inputs pipelineA.outputs
            (pipelineA.nodes.take 1) 0 (initCounts pipelineA.nodes) []).trace
          ++ [Event.report (List.range 1)]
      ∧ ∀ d, Event.release d ∈ (SequentialRunner.run failsAt1 none
            pipelineA).trace →
          Event.release d ∈ (runLoop (fun _ => none) none pipelineA.inputs
            pipelineA.outputs (pipelineA.nodes.take 1) 0
            (initCounts pipelineA.nodes) []).trace) :=
  ⟨⟨by decide,
    by
      intro m hm
      have h0 : m = 0 := by omega
      subst h0
      rfl,
    rfl⟩,
   C5_failure_preserves_release_state pipelineA failsAt1 none 7 1 (by decide)
     (by
       intro m hm
       have h0 : m = 0 := by omega
       subst h0
       rfl)
     rfl⟩

/-- C6: the initial load count of every key is its number of occurrences
across all nodes' input lists counted with multiplicity; a key consumed by
no node starts at 0, is never decremented by any node's input loop, and is
never released during any run. -/
theorem C6_load_count_multiplicity (p : Pipeline) (d : String)
    (h : ∀ n, n ∈ p.nodes → d ∉ n.inputs) :
    (∀ x : String, initCounts p.nodes x
        = (((p.nodes.map (fun n => n.inputs.count x)).sum : Nat) : Int))
    ∧ initCounts p.nodes d = 0
    ∧ (∀ n, n ∈ p.nodes → ∀ (fIns : List String) (c : String → Int),
        (releaseInputs fIns c n.inputs).1 d = c d)
    ∧ ∀ (fails : Nat → Option Nat) (rexc : Option Nat),
        Event.release d ∉ (SequentialRunner.run fails rexc p).trace := by
  have hnotin : d ∉ allInputs p.nodes := by
    intro hmem
    obtain ⟨n, hn, hdn⟩ := mem_allInputs.mp hmem
    exact h n hn hdn
  refine ⟨?_, ?_, ?_, ?_⟩
  · intro x
    simp only [initCounts]
    rw [count_allInputs]
  · simp only [initCounts]
    rw [List.count_eq_zero.mpr hnotin]
    rfl
  · intro n hn fIns c
    rw [releaseInputs_fst, List.count_eq_zero.mpr (h n hn)]
    simp
  · intro fails rexc
    exact release_not_mem_of_not_input p d fails rexc hnotin

/-- C6 witness: in Scenario A the key `b` is consumed by no node. -/
theorem C6_witness :
    (∀ n, n ∈ pipelineA.nodes → "b" ∉ n.inputs)
    ∧ ((∀ x : String, initCounts pipelineA.nodes x
          = (((pipelineA.nodes.map (fun n => n.inputs.count x)).sum : Nat)
              : Int))
      ∧ initCounts pipelineA.nodes "b" = 0
      ∧ (∀ n, n ∈ pipelineA.nodes → ∀ (fIns : List String) (c : String → Int),
          (releaseInputs fIns c n.inputs).1 "b" = c "b")
      ∧ ∀ (fails : Nat → Option Nat) (rexc : Option Nat),
          Event.release "b"
            ∉ (SequentialRunner.run fails rexc pipelineA).trace) :=
  ⟨by decide, C6_load_count_multiplicity pipelineA "b" (by decide)⟩

/-- C7: in a successful run the completed-node events are exactly
`exec 0, exec 1, …` in pipeline order (each node once, single pass); hence
every lower-indexed node — in particular every producer of one of a
node's inputs, by topological validity — completes strictly before it. -/
theorem C7_nodes_execute_in_pipeline_order (p : Pipeline)
    (fails : Nat → Option Nat) (rexc : Option Nat)
    (hsucc : ∀ m, fails m = none) :
    ((SequentialRunner.run fails rexc p).trace.filter Event.isExec
        = (List.range p.nodes.length).map Event.exec)
    ∧ (∀ a b : Nat, a < b →
        ∀ pre post,
          (SequentialRunner.run fails rexc p).trace
            = pre ++ Event.exec b :: post →
          Event.exec a ∈ pre)
    ∧ ∀ (d : String), WFd d p.nodes →
        ∀ i j : Fin p.nodes.length,
          d ∈ (p.nodes.get i).outputs → d ∈ (p.nodes.get j).inputs →
          ∀ pre post,
            (SequentialRunner.run fails rexc p).trace
              = pre ++ Event.exec (j : Nat) :: post →
            Event.exec (i : Nat) ∈ pre := by
  have hfil : (SequentialRunner.run fails rexc p).trace.filter Event.isExec
      = (List.range p.nodes.length).map Event.exec := by
    simp only [SequentialRunner.run]
    rw [filter_isExec_runLoop fails rexc p.inputs p.outputs hsucc p.nodes 0
      (initCounts p.nodes) []]
    apply List.map_congr_left
    intro a _
    simp
  refine ⟨hfil, ?_, ?_⟩
  · intro a b hab pre post htr
    exact exec_order_of_filter hfil a b hab pre post htr
  · intro d hwf i j hout hin pre post htr
    exact exec_order_of_filter hfil (i : Nat) (j : Nat) (hwf i j hout hin)
      pre post htr

/-- C7 witness: Scenario A runs its two nodes as `exec 0, exec 1`. -/
theorem C7_witness :
    (∀ m : Nat, (fun _ : Nat => (none : Option Nat)) m = none)
    ∧ (((SequentialRunner.run (fun _ => none) none pipelineA).trace.filter
          Event.isExec
        = (List.range pipelineA.nodes.length).map Event.exec)
      ∧ (∀ a b : Nat, a < b →
          ∀ pre post,
            (SequentialRunner.run (fun _ => none) none pipelineA).trace
              = pre ++ Event.exec b :: post →
            Event.exec a ∈ pre)
      ∧ ∀ (d : String), WFd d pipelineA.nodes →
          ∀ i j : Fin pipelineA.nodes.length,
            d ∈ (pipelineA.nodes.get i).outputs
              → d ∈ (pipelineA.nodes.get j).inputs →
            ∀ pre post,
              (SequentialRunner.run (fun _ => none) none pipelineA).trace
                = pre ++ Event.exec (j : Nat) :: post →
              Event.exec (i : Nat) ∈ pre) :=
  ⟨fun _ => rfl,
   C7_nodes_execute_in_pipeline_order pipelineA (fun _ => none) none
     (fun _ => rfl)⟩

/-- C8: the engine is deterministic — two runs of the same pipeline in
which every node succeeds (independent stores, arbitrary reporter
environments) produce identical results: the same node-completion order
and the same release sequence. -/
theorem C8_deterministic_ordering (p : Pipeline)
    (fails1 fails2 : Nat → Option Nat) (rexc1 rexc2 : Option Nat)
    (h1 : ∀ m, fails1 m = none) (h2 : ∀ m, fails2 m = none) :
    SequentialRunner.run fails1 rexc1 p = SequentialRunner.run fails2 rexc2 p := by
  simp only [SequentialRunner.run]
  exact runLoop_success_congr fails1 fails2 rexc1 rexc2 p.inputs p.outputs
    h1 h2 p.nodes 0 (initCounts p.nodes) []

/-- C8 witness: two successful Scenario A runs under syntactically
different oracles and reporter environments coincide. -/
theorem C8_witness :
    ((∀ m, failsNever m = none)
      ∧ (∀ m : Nat, (fun _ : Nat => (none : Option Nat)) m = none))
    ∧ SequentialRunner.run failsNever (some 5) pipelineA
        = SequentialRunner.run (fun _ => none) none pipelineA :=
  ⟨⟨fun m => by simp [failsNever], fun _ => rfl⟩,
   C8_deterministic_ordering pipelineA failsNever (fun _ => none) (some 5)
     none (fun m => by simp [failsNever]) (fun _ => rfl)⟩

/-- C9: in the constructor, any falsy `extra_dataset_patterns` — `None` or
an explicitly passed empty mapping — is replaced by the default
`{"{default}": {"type": "MemoryDataset"}}` pattern, so the resolved
patterns can never be empty. -/
theorem C9_falsy_extra_patterns_replaced :
    SequentialRunner.resolveExtraDatasetPatterns none
        = SequentialRunner.defaultDatasetPattern
    ∧ SequentialRunner.resolveExtraDatasetPatterns (some [])
        = SequentialRunner.defaultDatasetPattern
    ∧ ∀ extra, SequentialRunner.resolveExtraDatasetPatterns extra ≠ [] := by
  refine ⟨rfl, rfl, ?_⟩
  intro extra
  cases extra with
  | none =>
    simp [SequentialRunner.resolveExtraDatasetPatterns,
      SequentialRunner.defaultDatasetPattern]
  | some m =>
    by_cases hm : m = []
    · subst hm
      simp [SequentialRunner.resolveExtraDatasetPatterns,
        SequentialRunner.defaultDatasetPattern]
    · simp [SequentialRunner.resolveExtraDatasetPatterns, hm]

/-- C10: if the failure reporter raises `r` while handling the failure
`e` of node `k`, the engine propagates the reporter's exception `r`
instead of the original `e`; with a non-raising reporter the original
`e` surfaces. -/
theorem C10_reporter_exception_overrides (p : Pipeline)
    (fails : Nat → Option Nat) (e k r : Nat)
    (hk : k < p.nodes.length)
    (hpre : ∀ m, m < k → fails m = none)
    (hfk : fails k = some e) :
    (SequentialRunner.run fails (some r) p).error = some r
    ∧ (SequentialRunner.run fails none p).error = some e := by
  have hpre0 : ∀ m, m < k → fails (0 + m) = none := by
    intro m hm
    rw [Nat.zero_add]
    exact hpre m hm
  have hfk0 : fails (0 + k) = some e := by
    rw [Nat.zero_add]
    exact hfk
  constructor
  · simp only [SequentialRunner.run]
    have := runLoop_fail_error fails (some r) p.inputs p.outputs e p.nodes k 0
      (initCounts p.nodes) [] hk hpre0 hfk0
    simpa using this
  · simp only [SequentialRunner.run]
    have := runLoop_fail_error fails none p.inputs p.outputs e p.nodes k 0
      (initCounts p.nodes) [] hk hpre0 hfk0
    simpa using this

/-- C10 witness: node 1 of Scenario A raises 7; a reporter that raises 9
makes the run propagate 9, a silent reporter propagates 7. -/
theorem C10_witness :
    ((1 : Nat) < pipelineA.nodes.length
      ∧ (∀ m, m < 1 → failsAt1 m = none)
      ∧ failsAt1 1 = some 7)
    ∧ ((SequentialRunner.run failsAt1 (some 9) pipelineA).error = some 9
      ∧ (SequentialRunner.run failsAt1 none pipelineA).error = some 7) :=
  ⟨⟨by decide,
    by
      intro m hm
      have h0 : m = 0 := by omega
      subst h0
      rfl,
    rfl⟩,
   C10_reporter_exception_overrides pipelineA failsAt1 7 1 9 (by decide)
     (by
       intro m hm
       have h0 : m = 0 := by omega
       subst h0
       rfl)
     rfl⟩

end Kedro
